import Mathlib

/-!
Shallow embedding of the predicate-serialization core of the
tickvault-python-api client (`tickvaultpythonapi/client.py`), together with a
model of the predicate parser described by the repository's design notes
(the `tickvaultpythonapi.parsing` module itself is not part of the sources
available here, only its caller `BaseClient.run_query` is).
-/

/-- The closed enumeration of predicate operators
(surface spellings `=`, `!=`/`<>`, `>=`, `<=`, `>`, `<`). -/
inductive Operator
  | EQ
  | NEQ
  | GTE
  | LTE
  | GT
  | LT
deriving DecidableEq, Repr

/-- One atomic filter condition: `field operator value-list`. -/
structure PredicateTerm where
  field : String
  op : Operator
  values : List String
deriving DecidableEq, Repr

/-- Modelled from the spec: `Predicate.get_as_tuple` lives in the
`tickvaultpythonapi.parsing.predicate` module, which is not among the sources;
per the spec the tuple's first element is exactly `term.field` and the second
is the comma-join of `term.values` in original order, with the operator not
encoded. -/
def Predicate.get_as_tuple (t : PredicateTerm) : String × String :=
  (t.field, String.intercalate "," t.values)

/-- A Python dict with string keys and values, modelled as an association list
in insertion order with unique keys maintained by `dictInsert`. -/
abbrev Params := List (String × String)

/-- Python dict assignment `d[k] = v`: replace the value at an existing key in
place, otherwise append the new binding at the end (insertion order). -/
def dictInsert : Params → String × String → Params
  | [], kv => [kv]
  | p :: ps, kv => if p.1 = kv.1 then (p.1, kv.2) :: ps else p :: dictInsert ps kv

/-- Python dict lookup `d.get(k)`. -/
def dictGet : Params → String → Option String
  | [], _ => none
  | p :: ps, k => if p.1 = k then some p.2 else dictGet ps k

/-- Python `dict(list_of_pairs)` (client.py line 120): insert the pairs left to
right into an empty dict, so a later pair with the same key overwrites an
earlier one. -/
def dictOfPairs (l : List (String × String)) : Params := l.foldl dictInsert []

/-- Python `{**a, **b}` (client.py line 121): start from `a` and insert every
binding of `b`, so `b` wins on duplicate keys. -/
def dictMerge (a b : Params) : Params := b.foldl dictInsert a

/-- The predicate-population step of `BaseClient.run_query`
(client.py lines 116-121): when the predicate list is non-empty, serialize each
predicate to its tuple, build a dict from the tuples, and merge it over the
caller-supplied params; an empty predicate list leaves params untouched. -/
def run_query_params (predicates : List PredicateTerm) (params : Params) : Params :=
  if predicates.isEmpty then params
  else dictMerge params (dictOfPairs (predicates.map Predicate.get_as_tuple))

/-- The same predicate-population step with its error behaviour made
explicit: client.py lines 116-121 contain no raise, no try, and no
`sys.exit`, so no step of the serialization can fail. -/
def run_query_paramsE (predicates : List PredicateTerm) (params : Params) :
    Except String Params :=
  if predicates.isEmpty then pure params
  else do
    let preds := dictOfPairs (predicates.map Predicate.get_as_tuple)
    pure (dictMerge params preds)

/-! ## Parser model

Modelled from the spec: the predicate parser lives in the
`tickvaultpythonapi.parsing` module, which is not among the sources available
here. The definitions below follow the spec's grammar: an expression is terms
joined by the case-insensitive, whitespace-delimited keyword `and`; a term is
`field WS operator WS value_list` with operators matched longest-first;
values are comma-separated, whitespace-trimmed, may be quoted (single or
double quotes protect embedded commas), and must be non-empty; fields must be
identifiers (letters, digits, underscore, not starting with a digit).
Python strings are modelled as `List Char` internally, `String` at the
boundary. Rejoining a term's words with single spaces normalizes interior
whitespace runs, which the spec declares insignificant. -/

/-- Error taxonomy of the parser (spec section 7). -/
inductive ParseError
  | predicateSyntaxError (msg : String)
  | unsupportedOperatorError (tok : String)
deriving DecidableEq, Repr

/-- Split a character sequence into maximal whitespace-free words
(Python `str.split()` with no argument). -/
def wordsAux : List Char → List Char → List (List Char)
  | [], cur => if cur.isEmpty then [] else [cur.reverse]
  | c :: cs, cur =>
    if c.isWhitespace then
      if cur.isEmpty then wordsAux cs [] else cur.reverse :: wordsAux cs []
    else wordsAux cs (c :: cur)

/-- The whitespace-separated words of a string. -/
def words (s : List Char) : List (List Char) := wordsAux s []

/-- Group a word list into term groups separated by the conjunction keyword
`and` (case-insensitive); separators are removed, empty groups are kept so
that a dangling `and` is detected as a syntax error. -/
def splitConj : List (List Char) → List (List (List Char))
  | [] => [[]]
  | w :: ws =>
    if w.map Char.toLower = "and".toList then [] :: splitConj ws
    else
      match splitConj ws with
      | [] => [[w]]
      | g :: gs => (w :: g) :: gs

/-- Rejoin words with single spaces. -/
def joinWords : List (List Char) → List Char
  | [] => []
  | [w] => w
  | w :: ws => w ++ ' ' :: joinWords ws

/-- Does `p` occur at the head of `l`? -/
def startsWith : List Char → List Char → Bool
  | [], _ => true
  | _ :: _, [] => false
  | p :: ps, c :: cs => p = c && startsWith ps cs

/-- The operator surface spellings in longest-first matching order
(`>=` before `>`, `!=`/`<>` before the single-character spellings), per the
spec's longest-first tokenization rule. -/
def opTable : List (List Char × Operator) :=
  [(['!', '='], .NEQ), (['<', '>'], .NEQ), (['>', '='], .GTE), (['<', '='], .LTE),
   (['='], .EQ), (['>'], .GT), (['<'], .LT)]

/-- Find the leftmost occurrence of a supported operator spelling, longest
spelling first at each position; returns the characters before it, the
operator, and the characters after it. -/
def findOp : List Char → Option (List Char × Operator × List Char)
  | [] => none
  | c :: cs =>
    match opTable.find? (fun p => startsWith p.1 (c :: cs)) with
    | some (tok, o) => some ([], o, (c :: cs).drop tok.length)
    | none =>
      match findOp cs with
      | some (before, o, after) => some (c :: before, o, after)
      | none => none

/-- Trim whitespace from both ends. -/
def trimChars (l : List Char) : List Char :=
  ((l.dropWhile Char.isWhitespace).reverse.dropWhile Char.isWhitespace).reverse

/-- Split a raw value-list on commas that are outside quotes; inside a quoted
run (opened by `'` or `"`) commas are part of the value; an unterminated
quote is a syntax error. The first argument is the remaining input, the
second the currently open quote character, the third the current segment
accumulated in reverse. -/
def splitVals : List Char → Option Char → List Char → Except ParseError (List (List Char))
  | [], some _, _ => .error (.predicateSyntaxError "unterminated quoted value")
  | [], none, cur => .ok [cur.reverse]
  | c :: cs, some q, cur =>
    if c = q then splitVals cs none (c :: cur) else splitVals cs (some q) (c :: cur)
  | c :: cs, none, cur =>
    if c = ',' then
      match splitVals cs none [] with
      | .error e => .error e
      | .ok vs => .ok (cur.reverse :: vs)
    else if c = '\'' || c = '"' then splitVals cs (some c) (c :: cur)
    else splitVals cs none (c :: cur)

/-- Trim a raw value, strip one pair of matching surrounding quotes, and
reject an empty result (this is how a missing value after an operator and a
leading/trailing comma in a value list are detected). -/
def cleanValue (v : List Char) : Except ParseError (List Char) :=
  let t := trimChars v
  let u :=
    match t with
    | [] => []
    | c :: cs =>
      if (c = '\'' || c = '"') && cs ≠ [] && cs.getLast? = some c then cs.dropLast
      else c :: cs
  if u.isEmpty then .error (.predicateSyntaxError "missing value in value list") else .ok u

/-- Identifier characters: letters, digits, underscore. -/
def isIdentChar (c : Char) : Bool := c.isAlpha || c.isDigit || c = '_'

/-- Identifier syntax for field names: non-empty, identifier characters only,
not starting with a digit. -/
def isIdentifier : List Char → Bool
  | [] => false
  | c :: cs => (c.isAlpha || c = '_') && (c :: cs).all isIdentChar

/-- Parse one term from its word group: locate the operator, validate the
field identifier, and split/clean the value list. When no supported operator
spelling occurs anywhere but the term still has the shape
`field token rest`, the token in operator position is reported as an
unsupported operator. -/
def parseTerm (ws : List (List Char)) : Except ParseError PredicateTerm :=
  let t := joinWords ws
  match findOp t with
  | some (before, o, after) =>
    let f := trimChars before
    if !isIdentifier f then .error (.predicateSyntaxError "invalid field identifier")
    else
      match splitVals after none [] with
      | .error e => .error e
      | .ok raws =>
        match raws.mapM cleanValue with
        | .error e => .error e
        | .ok vals => .ok { field := String.mk f, op := o, values := vals.map String.mk }
  | none =>
    match ws with
    | _ :: opTok :: _ => .error (.unsupportedOperatorError (String.mk opTok))
    | _ => .error (.predicateSyntaxError "missing operator")

/-- Parse a predicate string into its term sequence: blank input is rejected,
the word sequence is split on the conjunction keyword, and every group must
parse as a term (all-or-nothing: the first failing term aborts the parse
with its error and no partial expression is returned). -/
def parse (s : String) : Except ParseError (List PredicateTerm) :=
  let ws := words s.toList
  if ws.isEmpty then .error (.predicateSyntaxError "empty predicate string")
  else
    (splitConj ws).mapM fun g =>
      if g.isEmpty then .error (.predicateSyntaxError "missing term around conjunction")
      else parseTerm g

instance {ε α : Type} [DecidableEq ε] [DecidableEq α] : DecidableEq (Except ε α) := fun a b =>
  match a, b with
  | .ok x, .ok y =>
    if h : x = y then .isTrue (by rw [h]) else .isFalse (by intro hc; cases hc; exact h rfl)
  | .error x, .error y =>
    if h : x = y then .isTrue (by rw [h]) else .isFalse (by intro hc; cases hc; exact h rfl)
  | .ok _, .error _ => .isFalse (by intro hc; cases hc)
  | .error _, .ok _ => .isFalse (by intro hc; cases hc)

/-- `true` iff the parse result is a `PredicateSyntaxError`. -/
def isSyntaxError : Except ParseError (List PredicateTerm) → Bool
  | .error (.predicateSyntaxError _) => true
  | _ => false

/-- `true` iff the parse result is an `UnsupportedOperatorError`. -/
def isUnsupportedOperatorError : Except ParseError (List PredicateTerm) → Bool
  | .error (.unsupportedOperatorError _) => true
  | _ => false

/-! ## The string/list conversion helpers of `BaseClient`
(client.py lines 43-57). -/

/-- A Python value that is either a `str` or a `list` of `str` — the only
runtime types `_str_to_list` and `_list_to_str` accept (any other type makes
them exit the process; the sum type excludes that branch by construction). -/
inductive StrOrList
  | str (s : String)
  | lst (l : List String)
deriving DecidableEq, Repr

/-- Python `s.split(",")` over the character list of `s`: split at every
comma, keeping empty segments (so `"".split(",")` is `[""]`). -/
def splitComma : List Char → List (List Char)
  | [] => [[]]
  | c :: cs =>
    if c = ',' then [] :: splitComma cs
    else
      match splitComma cs with
      | [] => [[c]]
      | h :: t => (c :: h) :: t

/-- Python `",".join(l)` over character lists. -/
def joinComma : List (List Char) → List Char
  | [] => []
  | [v] => v
  | v :: vs => v ++ ',' :: joinComma vs

/-- `BaseClient._str_to_list` (client.py lines 43-49): a string is split on
commas, a list is returned as is. The `field_name` argument is unused by the
source as well. -/
def _str_to_list (field_name : String) (to_convert : StrOrList) : List String :=
  match to_convert with
  | .str s => (splitComma s.toList).map String.mk
  | .lst l => l

/-- `BaseClient._list_to_str` (client.py lines 51-57): a list is comma-joined
(`str` applied to a `str` element is the identity), a string is returned as
is. -/
def _list_to_str (field_name : String) (to_convert : StrOrList) : String :=
  match to_convert with
  | .lst l => String.mk (joinComma (l.map String.toList))
  | .str s => s

/-! ## Dictionary lemmas -/

/-- The value of the last pair carrying key `k`, if any: the reference
function for the last-write-wins merge policy. -/
def lastVal : List (String × String) → String → Option String
  | [], _ => none
  | p :: ps, k =>
    match lastVal ps k with
    | some v => some v
    | none => if p.1 = k then some p.2 else none

/-- The keys of a dict, in order. -/
def keys (d : Params) : List String := d.map Prod.fst

theorem dictGet_dictInsert (d : Params) (k v k' : String) :
    dictGet (dictInsert d (k, v)) k' = if k' = k then some v else dictGet d k' := by
  induction d with
  | nil =>
    by_cases h : k' = k
    · simp [dictInsert, dictGet, h]
    · have h2 : ¬k = k' := fun hc => h hc.symm
      simp [dictInsert, dictGet, h, h2]
  | cons p ps ih =>
    by_cases hp : p.1 = k
    · by_cases h : k' = k
      · simp [dictInsert, dictGet, hp, h]
      · have h2 : ¬k = k' := fun hc => h hc.symm
        simp [dictInsert, dictGet, hp, h, h2]
    · simp only [dictInsert, if_neg hp]
      by_cases hk : p.1 = k'
      · have h : ¬k' = k := fun hc => hp (hk.trans hc)
        simp [dictGet, hk, h]
      · simp [dictGet, hk, ih]

theorem dictGet_foldl_dictInsert (l : List (String × String)) (d : Params) (k : String) :
    dictGet (l.foldl dictInsert d) k =
      match lastVal l k with
      | some v => some v
      | none => dictGet d k := by
  induction l generalizing d with
  | nil => simp [lastVal]
  | cons p ps ih =>
    rw [List.foldl_cons, ih (dictInsert d p)]
    cases hs : lastVal ps k with
    | some v => simp [lastVal, hs]
    | none =>
      simp only [lastVal, hs]
      rw [dictGet_dictInsert d p.1 p.2 k]
      by_cases h : k = p.1
      · simp [h]
      · have h2 : ¬p.1 = k := fun hc => h hc.symm
        simp [h, h2]

theorem length_dictInsert (d : Params) (kv : String × String) :
    (dictInsert d kv).length ≤ d.length + 1 := by
  induction d with
  | nil => simp [dictInsert]
  | cons p ps ih =>
    by_cases h : p.1 = kv.1 <;> simp [dictInsert, h] <;> omega

theorem length_foldl_dictInsert (l : List (String × String)) (d : Params) :
    (l.foldl dictInsert d).length ≤ d.length + l.length := by
  induction l generalizing d with
  | nil => simp
  | cons p ps ih =>
    rw [List.foldl_cons]
    calc (ps.foldl dictInsert (dictInsert d p)).length
        ≤ (dictInsert d p).length + ps.length := ih (dictInsert d p)
      _ ≤ d.length + 1 + ps.length := by
          have := length_dictInsert d p
          omega
      _ = d.length + (p :: ps).length := by simp; omega

theorem mem_keys_dictInsert {x : String} (d : Params) (kv : String × String)
    (h : x ∈ keys (dictInsert d kv)) : x ∈ keys d ∨ x = kv.1 := by
  induction d with
  | nil =>
    right
    simpa [dictInsert, keys] using h
  | cons p ps ih =>
    by_cases hp : p.1 = kv.1
    · left
      simpa [dictInsert, hp, keys] using h
    · rw [show dictInsert (p :: ps) kv = p :: dictInsert ps kv by simp [dictInsert, hp]] at h
      simp only [keys, List.map_cons, List.mem_cons] at h ⊢
      rcases h with h | h
      · exact Or.inl (Or.inl h)
      · rcases ih h with h2 | h2
        · exact Or.inl (Or.inr h2)
        · exact Or.inr h2

theorem nodup_keys_dictInsert (d : Params) (kv : String × String)
    (h : (keys d).Nodup) : (keys (dictInsert d kv)).Nodup := by
  induction d with
  | nil => simp [dictInsert, keys]
  | cons p ps ih =>
    simp only [keys, List.map_cons, List.nodup_cons] at h
    by_cases hp : p.1 = kv.1
    · simp only [dictInsert, if_pos hp, keys, List.map_cons, List.nodup_cons]
      exact ⟨h.1, h.2⟩
    · rw [show dictInsert (p :: ps) kv = p :: dictInsert ps kv by simp [dictInsert, hp]]
      simp only [keys, List.map_cons, List.nodup_cons]
      refine ⟨fun hx => ?_, ih h.2⟩
      rcases mem_keys_dictInsert ps kv hx with h2 | h2
      · exact h.1 h2
      · exact hp h2

theorem nodup_keys_foldl_dictInsert (l : List (String × String)) (d : Params)
    (h : (keys d).Nodup) : (keys (l.foldl dictInsert d)).Nodup := by
  induction l generalizing d with
  | nil => exact h
  | cons p ps ih => exact ih _ (nodup_keys_dictInsert d p h)

theorem nodup_keys_dictOfPairs (l : List (String × String)) :
    (keys (dictOfPairs l)).Nodup :=
  nodup_keys_foldl_dictInsert l [] (by simp [keys])

theorem lastVal_eq_none_of_not_mem (d : Params) (k : String) (h : k ∉ keys d) :
    lastVal d k = none := by
  induction d with
  | nil => rfl
  | cons p ps ih =>
    simp only [keys, List.map_cons, List.mem_cons, not_or] at h
    have h2 : k ∉ keys ps := by simpa [keys] using h.2
    simp only [lastVal, ih h2]
    exact if_neg fun hc => h.1 hc.symm

theorem lastVal_eq_dictGet (d : Params) (k : String) (h : (keys d).Nodup) :
    lastVal d k = dictGet d k := by
  induction d with
  | nil => rfl
  | cons p ps ih =>
    simp only [keys, List.map_cons, List.nodup_cons] at h
    by_cases hp : p.1 = k
    · have hk : k ∉ keys ps := by rw [← hp]; simpa [keys] using h.1
      simp only [lastVal, lastVal_eq_none_of_not_mem ps k hk, dictGet, if_pos hp]
    · simp only [lastVal, dictGet, if_neg hp, ih h.2]
      cases dictGet ps k <;> rfl

theorem dictGet_run_query_params (predicates : List PredicateTerm) (params : Params)
    (k : String) (hne : predicates ≠ []) :
    dictGet (run_query_params predicates params) k =
      match lastVal (predicates.map Predicate.get_as_tuple) k with
      | some v => some v
      | none => dictGet params k := by
  have he : predicates.isEmpty = false := by
    cases predicates with
    | nil => exact absurd rfl hne
    | cons t ts => rfl
  rw [run_query_params, he]
  simp only [Bool.false_eq_true, if_false]
  rw [dictMerge, dictGet_foldl_dictInsert,
    lastVal_eq_dictGet _ k (nodup_keys_dictOfPairs _),
    dictOfPairs, dictGet_foldl_dictInsert]
  cases lastVal (predicates.map Predicate.get_as_tuple) k <;> rfl

theorem lastVal_get_as_tuple_none (predicates : List PredicateTerm) (k : String)
    (h : ∀ t ∈ predicates, t.field ≠ k) :
    lastVal (predicates.map Predicate.get_as_tuple) k = none := by
  induction predicates with
  | nil => rfl
  | cons t ts ih =>
    simp only [List.map_cons, lastVal, ih fun u hu => h u (List.mem_cons_of_mem t hu)]
    exact if_neg (h t (List.mem_cons_self t ts))

theorem lastVal_get_as_tuple_isSome (predicates : List PredicateTerm) (k : String)
    (h : ∃ t ∈ predicates, t.field = k) :
    (lastVal (predicates.map Predicate.get_as_tuple) k).isSome = true := by
  induction predicates with
  | nil => rcases h with ⟨t, ht, _⟩; cases ht
  | cons t ts ih =>
    simp only [List.map_cons, lastVal]
    cases hs : lastVal (ts.map Predicate.get_as_tuple) k with
    | some v => rfl
    | none =>
      rcases h with ⟨u, hu, huk⟩
      rcases List.mem_cons.mp hu with h1 | h1
      · subst h1
        simp [Predicate.get_as_tuple, huk]
      · have h2 := ih ⟨u, h1, huk⟩
        rw [hs] at h2
        cases h2

/-! ## Split/join lemmas for the conversion helpers -/

theorem splitComma_ne_nil (s : List Char) : splitComma s ≠ [] := by
  cases s with
  | nil => simp [splitComma]
  | cons c cs =>
    simp only [splitComma]
    split
    · simp
    · split <;> simp

theorem joinComma_splitComma (s : List Char) : joinComma (splitComma s) = s := by
  induction s with
  | nil => rfl
  | cons c cs ih =>
    by_cases h : c = ','
    · subst h
      simp only [splitComma, if_pos rfl]
      cases hs : splitComma cs with
      | nil => exact absurd hs (splitComma_ne_nil cs)
      | cons g t =>
        rw [hs] at ih
        simp [joinComma, ih]
    · simp only [splitComma, if_neg h]
      cases hs : splitComma cs with
      | nil => exact absurd hs (splitComma_ne_nil cs)
      | cons g t =>
        rw [hs] at ih
        cases t with
        | nil => simpa [joinComma] using congrArg (c :: ·) ih
        | cons w ws => simpa [joinComma] using congrArg (c :: ·) ih

/-! ## Claim theorems -/

/-- C1: serializing a predicate expression into a pre-existing parameter
mapping returns the union of the input mapping and the serialized tuples:
every key of the input mapping that is not a predicate field name keeps its
input value, and the two-term example expression serialized into
`{"limit": "10"}` yields
`{"limit": "10", "line_type": "QA,QB", "askprice": "3"}`. -/
theorem run_query_params_union :
    (∀ (predicates : List PredicateTerm) (params : Params) (k : String),
        (∀ t ∈ predicates, t.field ≠ k) →
        dictGet (run_query_params predicates params) k = dictGet params k)
    ∧ run_query_params
        [⟨"line_type", .EQ, ["QA", "QB"]⟩, ⟨"askprice", .GTE, ["3"]⟩]
        [("limit", "10")]
      = [("limit", "10"), ("line_type", "QA,QB"), ("askprice", "3")] := by
  constructor
  · intro predicates params k h
    by_cases hp : predicates = []
    · subst hp; rfl
    · rw [dictGet_run_query_params predicates params k hp,
        lastVal_get_as_tuple_none predicates k h]
  · decide

/-- Witness for C1 at a concrete input. -/
theorem run_query_params_union_witness :
    dictGet (run_query_params [⟨"askprice", Operator.GTE, ["3"]⟩] [("limit", "10")]) "limit"
      = dictGet [("limit", "10")] "limit" :=
  run_query_params_union.1 [⟨"askprice", Operator.GTE, ["3"]⟩] [("limit", "10")] "limit"
    (by decide)

/-- C2: serializing an `n`-term expression into an empty mapping produces a
mapping with at most `n` (distinct) keys, and when field names repeat the
later term's comma-joined value is the one the final mapping holds
(last-write-wins, expressed by `lastVal`, the value of the last serialized
tuple carrying the key). -/
theorem serialize_last_write_wins :
    (∀ predicates : List PredicateTerm,
        (run_query_params predicates []).length ≤ predicates.length)
    ∧ (∀ predicates : List PredicateTerm,
        (keys (run_query_params predicates [])).Nodup)
    ∧ ∀ (predicates : List PredicateTerm) (k : String),
        dictGet (run_query_params predicates []) k
          = lastVal (predicates.map Predicate.get_as_tuple) k := by
  refine ⟨fun predicates => ?_, fun predicates => ?_, fun predicates k => ?_⟩
  · by_cases hp : predicates = []
    · subst hp; simp [run_query_params]
    · have he : predicates.isEmpty = false := by
        cases predicates with
        | nil => exact absurd rfl hp
        | cons t ts => rfl
      rw [run_query_params, he]
      simp only [Bool.false_eq_true, if_false, dictMerge]
      calc ((dictOfPairs (predicates.map Predicate.get_as_tuple)).foldl dictInsert []).length
          ≤ ([] : Params).length + (dictOfPairs (predicates.map Predicate.get_as_tuple)).length :=
            length_foldl_dictInsert _ _
        _ ≤ (predicates.map Predicate.get_as_tuple).length := by
            have := length_foldl_dictInsert (predicates.map Predicate.get_as_tuple) []
            simpa [dictOfPairs] using this
        _ = predicates.length := List.length_map _ _
  · by_cases hp : predicates = []
    · subst hp; simp [run_query_params, keys]
    · have he : predicates.isEmpty = false := by
        cases predicates with
        | nil => exact absurd rfl hp
        | cons t ts => rfl
      rw [run_query_params, he]
      simp only [Bool.false_eq_true, if_false, dictMerge]
      exact nodup_keys_foldl_dictInsert _ [] (by simp [keys])
  · by_cases hp : predicates = []
    · subst hp; rfl
    · rw [dictGet_run_query_params predicates [] k hp]
      cases lastVal (predicates.map Predicate.get_as_tuple) k <;> rfl

/-- C3: the serialized tuple of any term is `(term.field, comma-join of
term.values)` with no operator encoded and no escaping, so the tuple of a
term with any operator coincides with that of the equality term with the
same field and values. -/
theorem get_as_tuple_shape :
    (∀ t : PredicateTerm,
        Predicate.get_as_tuple t = (t.field, String.intercalate "," t.values))
    ∧ ∀ t : PredicateTerm,
        Predicate.get_as_tuple t = Predicate.get_as_tuple { t with op := Operator.EQ } :=
  ⟨fun _ => rfl, fun _ => rfl⟩

/-- C4: serializing an empty predicate expression leaves the input parameter
mapping unchanged (client.py line 117: the `if predicates:` guard skips the
whole population step). -/
theorem run_query_params_empty :
    ∀ params : Params, run_query_params [] params = params :=
  fun _ => rfl

/-- C5: the serialize step never raises: for every well-formed expression
(non-empty value lists) and every parameter mapping, the error-explicit
version of the step returns `ok` with the pure result. -/
theorem serialize_never_errors (predicates : List PredicateTerm) (params : Params)
    (h : ∀ t ∈ predicates, t.values ≠ []) :
    run_query_paramsE predicates params
      = Except.ok (run_query_params predicates params) := by
  unfold run_query_paramsE run_query_params
  split <;> rfl

/-- Witness for C5 at a concrete input. -/
theorem serialize_never_errors_witness :
    run_query_paramsE [⟨"askprice", Operator.GTE, ["3"]⟩] []
      = Except.ok (run_query_params [⟨"askprice", Operator.GTE, ["3"]⟩] []) :=
  serialize_never_errors [⟨"askprice", Operator.GTE, ["3"]⟩] [] (by decide)

/-- C6: parsing and serialization are pure functions of their arguments, so
running either twice on the same inputs yields identical results (in this
embedding the source's freedom from shared mutable state is reflected by the
operations being total functions: the Python code builds fresh dicts with
`dict(...)` and `{**params, **preds}` and never writes to its inputs). -/
theorem serialize_deterministic :
    (∀ (predicates : List PredicateTerm) (params : Params),
        run_query_params predicates params = run_query_params predicates params)
    ∧ ∀ s : String, parse s = parse s :=
  ⟨fun _ _ => rfl, fun _ => rfl⟩

/-- C7: the example string parses to exactly the two expected terms and that
expression serializes (into an empty mapping) to exactly
`{"line_type": "QA,QB", "askprice": "3"}`. -/
theorem parse_serialize_example :
    parse "line_type = QA,QB and askprice >= 3"
      = Except.ok
          [⟨"line_type", Operator.EQ, ["QA", "QB"]⟩, ⟨"askprice", Operator.GTE, ["3"]⟩]
    ∧ run_query_params
        [⟨"line_type", Operator.EQ, ["QA", "QB"]⟩, ⟨"askprice", Operator.GTE, ["3"]⟩] []
      = [("line_type", "QA,QB"), ("askprice", "3")] := by
  constructor
  · decide
  · decide

/-- C8: parsing is all-or-nothing on malformed input: blank input, a missing
value after an operator, a trailing comma in a value list, and an
unsupported operator token each raise the appropriate error kind, and a
parse that returns an error returns no expression at all. -/
theorem parse_rejects_malformed :
    isSyntaxError (parse "") = true
    ∧ isSyntaxError (parse "   ") = true
    ∧ isSyntaxError (parse "field =") = true
    ∧ isSyntaxError (parse "field >= 1,") = true
    ∧ isUnsupportedOperatorError (parse "field ~~ 1") = true
    ∧ ∀ (s : String) (e : ParseError), parse s = .error e →
        ∀ terms : List PredicateTerm, parse s ≠ .ok terms := by
  refine ⟨by decide, by decide, by decide, by decide, by decide, ?_⟩
  intro s e he terms hok
  rw [he] at hok
  cases hok

/-- Witness for C8 at a concrete input. -/
theorem parse_rejects_malformed_witness :
    parse "field =" ≠ Except.ok [] :=
  parse_rejects_malformed.2.2.2.2.2 "field ="
    (.predicateSyntaxError "missing value in value list") (by decide) []

/-- C9: when a serialized predicate field collides with a key already in the
caller-supplied mapping, the predicate's comma-joined value (the value of
the last serialized tuple with that key) is what the merged mapping holds,
not the pre-existing value. -/
theorem merge_predicate_overrides_params
    (predicates : List PredicateTerm) (params : Params) (k : String)
    (hk : dictGet params k ≠ none) (hp : ∃ t ∈ predicates, t.field = k) :
    dictGet (run_query_params predicates params) k
      = lastVal (predicates.map Predicate.get_as_tuple) k := by
  have hne : predicates ≠ [] := by
    rintro rfl
    rcases hp with ⟨t, ht, _⟩
    cases ht
  rw [dictGet_run_query_params predicates params k hne]
  cases hs : lastVal (predicates.map Predicate.get_as_tuple) k with
  | some v => rfl
  | none =>
    have h2 := lastVal_get_as_tuple_isSome predicates k hp
    rw [hs] at h2
    cases h2

/-- Witness for C9 at a concrete input. -/
theorem merge_predicate_overrides_params_witness :
    dictGet (run_query_params [⟨"limit", Operator.EQ, ["5"]⟩] [("limit", "10")]) "limit"
      = lastVal ([⟨"limit", Operator.EQ, ["5"]⟩].map Predicate.get_as_tuple) "limit" :=
  merge_predicate_overrides_params [⟨"limit", Operator.EQ, ["5"]⟩] [("limit", "10")] "limit"
    (by decide) ⟨⟨"limit", Operator.EQ, ["5"]⟩, by decide, rfl⟩

/-- C10: the conversion helpers round-trip: splitting a string on commas and
comma-joining the pieces restores the string; `_str_to_list` is the identity
on lists and `_list_to_str` is the identity on strings. -/
theorem conversion_round_trip :
    (∀ f g s : String, _list_to_str g (.lst (_str_to_list f (.str s))) = s)
    ∧ (∀ (f : String) (l : List String), _str_to_list f (.lst l) = l)
    ∧ ∀ f s : String, _list_to_str f (.str s) = s := by
  refine ⟨fun f g s => ?_, fun _ _ => rfl, fun _ _ => rfl⟩
  show String.mk (joinComma (((splitComma s.toList).map String.mk).map String.toList)) = s
  rw [List.map_map]
  have hc : String.toList ∘ String.mk = id := rfl
  rw [hc, List.map_id, joinComma_splitComma]
  cases s
  rfl
